import Mathlib

/-!
Shallow embedding of the stack-greedy orchestrator
(`src/greedy_stack_reg.cxx` of the greedy repository).

Each definition below transcribes one function or loop of the C++ source:

* `ImageCache` and its operations embed the `ImageCache` class
  (lines 70-159): `getImage`, `shrinkCache`, `isCacheFull`, `purgeCache`.
* `parseManifestLine` / `readManifest` embed
  `StackGreedyProject::ReadManifest` (lines 386-414).
* `nbrWalk`, `fwdNbrs`, `bwdNbrs` embed the two neighbor-collection loops of
  `StackGreedyProject::ReconstructStack` (lines 441-475).
* `rootSelect` embeds the root-selection loop (lines 580-594).
* `l1dist`, `rowSums`, `idxBest`, `medianAffine` embed the median-affine
  computation of `StackGreedyProject::InitialMatchToVolume` (lines 803-826),
  and `initialToVolumeTransforms` its final loop (lines 829-838).
* `normalizedMetric`, `edgeWeight` embed the metric normalization and edge
  weight formula (lines 556-570).
* `resliceNbrTransforms` embeds the transform-chain selection of
  `StackGreedyProject::IterativeMatchToVolume` (lines 944-963).

C++ `double` values are modelled as exact rationals (`ℚ`) where only
comparisons and ring operations occur, and as reals (`ℝ`) where the real
power function `pow` is involved.  Machine integers (`unsigned long`,
`unsigned int`) are modelled as `ℕ`; all subtractions performed by the code
occur in states where they cannot underflow (the byte accounting subtracts
the recorded size of a resident entry), so truncated `ℕ` subtraction agrees
with the C++ value there.
-/

/-- One slide of the manifest: `struct SliceData` (lines 55-60). -/
structure SliceData where
  unique_id : String
  z_pos : ℚ
  raw_filename : String
  deriving DecidableEq

/-- Errors raised by `ReadManifest` via `GreedyException`: one for a line the
stream extraction `iss >> id >> z >> fn` rejects (line 401), one for a line
whose referenced file does not exist (line 405). -/
inductive ManifestError where
  | lineError (tokens : List String)
  | missingFile (filename : String)
  deriving DecidableEq

/-- One iteration of the `ReadManifest` loop body (lines 395-412).
A manifest line is modelled as its list of whitespace-delimited tokens (a
blank line has no tokens).  `fe` abstracts `itksys::SystemTools::FileExists`
and `pd` abstracts the stream parse of a `double` from the second token.
The C++ extraction `iss >> slice.unique_id >> slice.z_pos >>
slice.raw_filename` succeeds exactly when at least three tokens exist and
the second one parses as a double; trailing tokens are ignored. -/
def parseManifestLine (fe : String → Bool) (pd : String → Option ℚ)
    (tokens : List String) : Except ManifestError SliceData :=
  match tokens with
  | uid :: zs :: fn :: _ =>
    match pd zs with
    | some z =>
      if fe fn then Except.ok ⟨uid, z, fn⟩
      else Except.error (ManifestError.missingFile fn)
    | none => Except.error (ManifestError.lineError tokens)
  | _ => Except.error (ManifestError.lineError tokens)

/-- Embeds `StackGreedyProject::ReadManifest` (lines 386-414): the lines are
processed in order and the first failing line aborts the whole read with an
exception.  The sorted-index side effect is not needed by the manifest
claims and is omitted here. -/
def readManifest (fe : String → Bool) (pd : String → Option ℚ) :
    List (List String) → Except ManifestError (List SliceData)
  | [] => Except.ok []
  | l :: ls =>
    match parseManifestLine fe pd l with
    | Except.error e => Except.error e
    | Except.ok s =>
      match readManifest fe pd ls with
      | Except.error e => Except.error e
      | Except.ok rest => Except.ok (s :: rest)

/-- Whether an `Except` value is a success. -/
def manifestOk {ε α : Type} : Except ε α → Bool
  | Except.ok _ => true
  | Except.error _ => false

/-- The success condition for one manifest line: at least three tokens, a
parseable z field, an existing file. -/
def goodLine (fe : String → Bool) (pd : String → Option ℚ)
    (tokens : List String) : Bool :=
  match tokens with
  | _ :: zs :: fn :: _ => (pd zs).isSome && fe fn
  | _ => false

/-- The C `fabs` function on exact rationals. -/
def fabs (x : ℚ) : ℚ := if x < 0 then -x else x

/-- The inner `while` of each neighbor-collection pass of `ReconstructStack`
(lines 449-456 and 467-474): starting from the slide with z-position `z`,
walk over the z-ordered candidate list, appending a candidate while
`n_added < 1 || fabs(z - candidate.z) < z_range`.  Candidates are pairs
`(z_pos, slide index)` exactly as in `m_SortedSlices`. -/
def nbrWalk (z zr : ℚ) : ℕ → List (ℚ × ℕ) → List (ℚ × ℕ)
  | _, [] => []
  | nAdded, c :: cs =>
    if nAdded < 1 ∨ fabs (z - c.1) < zr then c :: nbrWalk z zr (nAdded + 1) cs
    else []

/-- Forward pass (lines 442-457): for the slide at position `p` of the
sorted list `ss`, the walk runs over the candidates strictly after `p`. -/
def fwdNbrs (ss : List (ℚ × ℕ)) (zr : ℚ) (p : ℕ) : List (ℚ × ℕ) :=
  nbrWalk (ss.getD p (0, 0)).1 zr 0 (ss.drop (p + 1))

/-- Backward pass (lines 459-475, reverse iteration): the walk runs over the
candidates strictly before `p`, nearest first. -/
def bwdNbrs (ss : List (ℚ × ℕ)) (zr : ℚ) (p : ℕ) : List (ℚ × ℕ) :=
  nbrWalk (ss.getD p (0, 0)).1 zr 0 ((ss.take p).reverse)

/-- The root-selection loop of `ReconstructStack` (lines 580-594).
`dist i` abstracts the total Dijkstra distance accumulated for candidate
root `i` (`root_dist` in the source).  `rootSelect dist n` returns the pair
`(i_root, best_root_dist)` after the loop has processed `i = 0 .. n-1`,
updating on `i == 0 || best_root_dist > root_dist`. -/
def rootSelect (dist : ℕ → ℚ) : ℕ → ℕ × ℚ
  | 0 => (0, 0)
  | n + 1 =>
    let acc := rootSelect dist n
    if n = 0 ∨ dist n < acc.2 then (n, dist n) else acc

/-- A 3x3 homogeneous affine matrix (`vnl_matrix_fixed<double, 3, 3>`). -/
abbrev Mat3 := Matrix (Fin 3) (Fin 3) ℚ

/-- Entry-wise L1 distance `(A - B).array_one_norm()` (line 809). -/
def l1dist (A B : Mat3) : ℚ := ∑ i, ∑ j, |A i j - B i j|

/-- Sum of L1 distances from `A` to every matrix of the list: one row sum of
the `aff_dist` matrix (lines 804-815).  The source leaves the diagonal at 0,
which agrees with `l1dist A A = 0`. -/
def totalDist (affs : List Mat3) (A : Mat3) : ℚ :=
  (affs.map fun B => l1dist A B).sum

/-- The vector `row_sums = aff_dist * [1,...,1]` (line 815). -/
def rowSums (affs : List Mat3) : List ℚ :=
  affs.map (totalDist affs)

/-- Minimum of a list (`vnl_vector::min_value`), `none` on the empty list. -/
def listMin {α : Type} [LinearOrder α] : List α → Option α
  | [] => none
  | x :: xs =>
    some (match listMin xs with
          | none => x
          | some m => min x m)

/-- Embeds `idx_best = std::find(row_sums.begin(), row_sums.end(),
row_sums.min_value()) - row_sums.begin()` (lines 818-820): the first index
attaining the minimal row sum. -/
def idxBest (affs : List Mat3) : ℕ :=
  (rowSums affs).indexOf ((listMin (rowSums affs)).getD 0)

/-- Embeds `median_affine = vol_affine[idx_best]` (line 823). -/
def medianAffine (affs : List Mat3) : Mat3 :=
  affs.getD (idxBest affs) 0

/-- The final loop of `InitialMatchToVolume` (lines 829-838): for each slide
the iteration-0 transform is `M_vol = M_root * median_affine`, where
`M_root` is the ACCUM_MATRIX of the slide and the median is computed from the
per-slide volume-initial affines `affs`. -/
def initialToVolumeTransforms (accum affs : List Mat3) : List Mat3 :=
  accum.map fun M_root => M_root * medianAffine affs

/-- Metric normalization (line 561):
`pair_metric /= -10000.0 * i_ref->GetNumberOfComponentsPerPixel()`. -/
noncomputable def normalizedMetric (raw ncomp : ℝ) : ℝ :=
  raw / (-10000 * ncomp)

/-- Edge weight (line 567):
`weight = (1.0 - pair_metric) * pow(1 + z_epsilon, fabs(zn - z))`. -/
noncomputable def edgeWeight (pairMetric zEpsilon zi zj : ℝ) : ℝ :=
  (1 - pairMetric) * (1 + zEpsilon) ^ |zj - zi|

/-- A transform file referenced by the iterative refiner: either
VOL_ITER_MATRIX(slide, iter) or VOL_ITER_WARP(slide, iter). -/
inductive TransformFile where
  | volIterMatrix (slide iter : ℕ)
  | volIterWarp (slide iter : ℕ)
  deriving DecidableEq

/-- The transform chain pushed onto `param_reslice.reslice_param.transforms`
for a neighbor slide `j` at iteration `iter` of `IterativeMatchToVolume`
(lines 948-960): a single affine from the previous iteration when
`iter - 1 <= n_affine`, otherwise the warp of the previous iteration followed by
the frozen affine of iteration `n_affine`.  `iter` satisfies `1 ≤ iter` in
every reachable call (the range check at lines 860-862 rejects
`i_first == 0`), so `ℕ` subtraction agrees with the `unsigned` source. -/
def resliceNbrTransforms (n_affine iter j : ℕ) : List TransformFile :=
  if iter - 1 ≤ n_affine then
    [TransformFile.volIterMatrix j (iter - 1)]
  else
    [TransformFile.volIterWarp j (iter - 1),
     TransformFile.volIterMatrix j n_affine]

/-- The range check of `IterativeMatchToVolume` (lines 860-862). -/
def iterRangeValid (n_affine n_deform i_first i_last : ℕ) : Bool :=
  !(decide (i_last < i_first) || decide (i_first = 0) ||
    decide (n_affine + n_deform < i_last))

/-- One cache entry: the `(age, size)` part of
`std::tuple<unsigned long, unsigned long, itk::Object::Pointer>`
(line 150); the image payload itself carries no information used by the
cache logic and is omitted. -/
structure CacheEntry where
  counter : ℕ
  size : ℕ
  deriving DecidableEq

/-- The `ImageCache` class state (lines 147-158).  The map
`m_Cache : filename → entry` is modelled as an association list with unique
keys; its iteration order is irrelevant to every operation because eviction
selects by smallest counter, not by position. -/
structure ImageCache where
  cache : List (String × CacheEntry)
  maxMemory : ℕ
  usedMemory : ℕ
  maxImages : ℕ
  counter : ℕ
  deriving DecidableEq

/-- The constructor (lines 74-75):
`ImageCache(max_memory, max_images) : m_MaxMemory(max_memory),
m_MaxImages(max_images), m_Counter(0l) {}`.
The member `m_UsedMemory` is absent from the initializer list and has no
default member initializer, so a freshly constructed cache holds an
indeterminate value there; the parameter `indet` stands for that
indeterminate initial content. -/
def mkImageCache (max_memory max_images indet : ℕ) : ImageCache :=
  { cache := [], maxMemory := max_memory, usedMemory := indet,
    maxImages := max_images, counter := 0 }

/-- Embeds `ImageCache::IsCacheFull` (lines 130-139). -/
def ImageCache.isCacheFull (c : ImageCache) (newBytes newImages : ℕ) : Bool :=
  (decide (0 < c.maxMemory) && decide (c.maxMemory < c.usedMemory + newBytes)) ||
  (decide (0 < c.maxImages) && decide (c.maxImages < c.cache.length + newImages))

/-- The oldest entry of the cache: the eviction step builds
`sort_map : counter → filename` and takes `sort_map.begin()` (lines
119-124), i.e. the entry with the smallest counter.  Counters are pairwise
distinct in every reachable cache (each insertion uses `m_Counter++`), so
the tie direction of the comparison is immaterial. -/
def oldestEntry : List (String × CacheEntry) → Option (String × CacheEntry)
  | [] => none
  | e :: es =>
    some (match oldestEntry es with
          | none => e
          | some e2 => if e.2.counter ≤ e2.2.counter then e else e2)

/-- One iteration of the eviction loop body (lines 118-126): erase the
oldest entry and subtract its recorded size from `m_UsedMemory`. -/
def ImageCache.evictOldest (c : ImageCache) : ImageCache :=
  match oldestEntry c.cache with
  | none => c
  | some e =>
    { c with cache := c.cache.eraseP fun x => x.1 == e.1,
             usedMemory := c.usedMemory - e.2.size }

/-- The `while` loop of `ImageCache::ShrinkCache` (lines 116-127), unrolled
with an explicit iteration bound: each pass through the body removes one
entry, so the loop runs at most `initial cache size` times.  The theorem
`shrinkGo_exit` below shows that with this bound the loop guard has become
false at the returned state, i.e. the bound is exact and the C++ loop
terminates. -/
def shrinkGo (newBytes newImages : ℕ) : ℕ → ImageCache → ImageCache
  | 0, c => c
  | fuel + 1, c =>
    if c.isCacheFull newBytes newImages && !c.cache.isEmpty then
      shrinkGo newBytes newImages fuel c.evictOldest
    else c

/-- Embeds `ImageCache::ShrinkCache` (lines 112-128). -/
def ImageCache.shrinkCache (c : ImageCache) (newBytes newImages : ℕ) : ImageCache :=
  shrinkGo newBytes newImages c.cache.length c

/-- Embeds `ImageCache::GetImage` (lines 77-110).  On a hit the image is returned
and the cache state is untouched (lines 80-88: no counter refresh).  On a
miss the cache is first shrunk for the projected `(img_size, 1)` load, then
the new entry is inserted with the next counter value and `m_UsedMemory`
grows by the image size (lines 102-106).  The dynamic type check of the hit
path cannot fail in this single-image-type model and is omitted. -/
def ImageCache.getImage (c : ImageCache) (filename : String) (imgSize : ℕ) :
    ImageCache :=
  if c.cache.any fun e => e.1 == filename then c
  else
    let c2 := c.shrinkCache imgSize 1
    { c2 with cache := c2.cache ++ [(filename, ⟨c2.counter, imgSize⟩)],
              usedMemory := c2.usedMemory + imgSize,
              counter := c2.counter + 1 }

/-- Embeds `ImageCache::PurgeCache` (lines 141-145). -/
def ImageCache.purgeCache (c : ImageCache) : ImageCache :=
  { c with cache := [], usedMemory := 0 }

/-- The filenames currently resident in the cache. -/
def ImageCache.keys (c : ImageCache) : List String :=
  c.cache.map Prod.fst

/-- Total byte size of the resident entries. -/
def ImageCache.residentBytes (c : ImageCache) : ℕ :=
  (c.cache.map fun e => e.2.size).sum

/-- The accounting invariant claimed for `m_UsedMemory`. -/
def ImageCache.memoryAccounted (c : ImageCache) : Prop :=
  c.usedMemory = c.residentBytes

/-- The cache scenario of claim C1: `max_images = 2`, byte cap disabled,
`GetImage` for distinct files A, B, A, C, each of size 1.  The third
argument of `mkImageCache` (the indeterminate `m_UsedMemory`) is taken to
be 0; with the byte cap disabled it influences nothing. -/
def cacheScenarioC1 : ImageCache :=
  ((((mkImageCache 0 2 0).getImage ("A") 1).getImage ("B") 1).getImage
    ("A") 1).getImage ("C") 1

/-- File-existence oracle that accepts every file (for concrete manifests
whose files all exist). -/
def feAll : String → Bool := fun _ => true

/-- Concrete double-parser for the manifest scenarios: parses the two z
strings appearing in the example manifests. -/
def pdEx : String → Option ℚ := fun s =>
  if s = "1" then some 1 else if s = "2" then some 2 else none

/-- A manifest whose second line is blank and whose other lines are
well-formed and reference existing files. -/
def manifestBlankEx : List (List String) :=
  [["A", "1", "fA"], [], ["B", "2", "fB"]]

/-- Concrete root-distance table for the root-selection witness. -/
def rootDistEx : ℕ → ℚ := fun i => if i = 0 then 1 else 0

/-! ## Theorems -/

/-- Success of one manifest line parse coincides with the `goodLine`
condition. -/
theorem parseLine_ok_eq_goodLine (fe : String → Bool) (pd : String → Option ℚ)
    (l : List String) :
    manifestOk (parseManifestLine fe pd l) = goodLine fe pd l := by
  cases l with
  | nil => rfl
  | cons uid t =>
    cases t with
    | nil => rfl
    | cons zs t2 =>
      cases t2 with
      | nil => rfl
      | cons fn rest =>
        cases hpd : pd zs with
        | none => simp [parseManifestLine, goodLine, hpd, manifestOk]
        | some z =>
          cases hfe : fe fn <;>
            simp [parseManifestLine, goodLine, hpd, hfe, manifestOk]

/-- Unfolding step for `readManifest` on a nonempty manifest. -/
theorem readManifest_cons (fe : String → Bool) (pd : String → Option ℚ)
    (l : List String) (ls : List (List String)) :
    manifestOk (readManifest fe pd (l :: ls)) =
      (goodLine fe pd l && manifestOk (readManifest fe pd ls)) := by
  have hg := parseLine_ok_eq_goodLine fe pd l
  cases hp : parseManifestLine fe pd l with
  | error e =>
    rw [hp] at hg
    simp [readManifest, hp, manifestOk, ← hg]
  | ok s =>
    rw [hp] at hg
    cases hrest : readManifest fe pd ls with
    | error e2 => simp [readManifest, hp, hrest, manifestOk, ← hg]
    | ok rest => simp [readManifest, hp, hrest, manifestOk, ← hg]

/-- C2 (amended): `ReadManifest` does not skip blank lines.  It succeeds
exactly when every line of the manifest — blank lines included — has at
least three whitespace-delimited fields, a z field that parses as a double,
and references an existing file; equivalently it raises a `ManifestError`
exactly when some line (possibly blank) fails that condition. -/
theorem readManifest_ok_iff (fe : String → Bool) (pd : String → Option ℚ)
    (lines : List (List String)) :
    manifestOk (readManifest fe pd lines) = true ↔
      ∀ l ∈ lines, goodLine fe pd l = true := by
  induction lines with
  | nil => simp [readManifest, manifestOk]
  | cons l ls ih =>
    rw [readManifest_cons, Bool.and_eq_true, ih]
    simp [List.forall_mem_cons]

/-- C2 counterexample: a manifest whose only flaw is a blank middle line
(both non-blank lines are well-formed and reference existing files) is
rejected by `ReadManifest`, while the claim predicts success with the blank
line skipped. -/
theorem readManifest_blank_line_fails :
    manifestOk (readManifest feAll pdEx manifestBlankEx) = false := by
  decide

/-- Witness for C2: a concrete manifest satisfying the success condition
parses successfully. -/
theorem readManifest_ok_iff_witness :
    manifestOk (readManifest feAll pdEx [["A", "1", "fA"]]) = true :=
  (readManifest_ok_iff feAll pdEx [["A", "1", "fA"]]).mpr (by decide)

/-- After the first candidate has been accepted, the walk is exactly a
take-while on the strict z-gap comparison. -/
theorem nbrWalk_pos (z zr : ℚ) :
    ∀ (cs : List (ℚ × ℕ)) (n : ℕ), 1 ≤ n →
      nbrWalk z zr n cs = cs.takeWhile fun d => decide (fabs (z - d.1) < zr) := by
  intro cs
  induction cs with
  | nil => intro n hn; rfl
  | cons c cs2 ih =>
    intro n hn
    by_cases hlt : fabs (z - c.1) < zr
    · simp [nbrWalk, hlt, Nat.not_lt.2 hn, List.takeWhile_cons,
        ih (n + 1) (by omega)]
    · simp [nbrWalk, hlt, Nat.not_lt.2 hn, List.takeWhile_cons]

/-- C3 (amended): in each direction the walk always adds the first
candidate (because of the `n_added < 1` disjunct), and after that it keeps
adding exactly while the z-gap to the next candidate is strictly less than
`z_range`; a candidate whose z-gap equals `z_range` exactly is NOT added
once one neighbor exists in that direction.  With `z_range = 0` the
take-while part is empty, so each slide still gets exactly the one nearest
neighbor in every direction where a candidate exists. -/
theorem nbrWalk_first_then_strict (z zr : ℚ) (h : 0 ≤ zr) (c : ℚ × ℕ)
    (cs : List (ℚ × ℕ)) :
    nbrWalk z zr 0 (c :: cs) =
      c :: cs.takeWhile fun d => decide (fabs (z - d.1) < zr) := by
  have h1 : nbrWalk z zr 0 (c :: cs) = c :: nbrWalk z zr 1 cs := by
    simp [nbrWalk]
  rw [h1, nbrWalk_pos z zr cs 1 le_rfl]

/-- C3 counterexample: slides at z = 0, 1, 2 with `z_range = 2`.  Walking
forward from the slide at z = 0, the candidate at z = 2 has z-gap exactly
equal to `z_range`, and it is not added (the source comparison is strict),
while the claim predicts it is still added. -/
theorem nbrWalk_boundary_not_added :
    fwdNbrs [(0, 0), (1, 1), (2, 2)] 2 0 = [(1, 1)] ∧
      (2, 2) ∉ fwdNbrs [(0, 0), (1, 1), (2, 2)] 2 0 ∧
      fabs ((0 : ℚ) - 2) = 2 := by
  have h1 : fwdNbrs [(0, 0), (1, 1), (2, 2)] 2 0 = [(1, 1)] := by
    norm_num [fwdNbrs, nbrWalk, fabs]
  refine ⟨h1, ?_, by norm_num [fabs]⟩
  rw [h1]
  norm_num

/-- Witness for C3: the amended statement applied at `z_range = 0`, showing
the nearest candidate is still added there. -/
theorem nbrWalk_first_then_strict_witness :
    (0 : ℚ) ≤ 0 ∧
      nbrWalk 0 0 0 [(1, 1), (2, 2)] =
        (1, 1) :: [((2 : ℚ), 2)].takeWhile fun d => decide (fabs ((0 : ℚ) - d.1) < 0) :=
  ⟨le_rfl, nbrWalk_first_then_strict 0 0 le_rfl (1, 1) [(2, 2)]⟩

/-- Loop invariant of the root-selection loop: after processing candidates
`0 .. n-1` the held pair is the first argmin of `dist` on that range. -/
theorem rootSelect_spec (dist : ℕ → ℚ) :
    ∀ n, 0 < n →
      (rootSelect dist n).1 < n ∧
      (rootSelect dist n).2 = dist (rootSelect dist n).1 ∧
      (∀ j, j < n → (rootSelect dist n).2 ≤ dist j) ∧
      (∀ j, j < (rootSelect dist n).1 → (rootSelect dist n).2 < dist j) := by
  intro n
  induction n with
  | zero => intro h; exact absurd h (lt_irrefl 0)
  | succ n ih =>
    intro _
    cases Nat.eq_zero_or_pos n with
    | inl h0 =>
      subst h0
      have h1 : rootSelect dist 1 = (0, dist 0) := by simp [rootSelect]
      rw [h1]
      refine ⟨Nat.zero_lt_one, rfl, ?_, ?_⟩
      · intro j hj
        have hj0 : j = 0 := Nat.lt_one_iff.mp hj
        subst hj0
        exact le_rfl
      · intro j hj
        exact absurd hj (Nat.not_lt_zero j)
    | inr hpos =>
      obtain ⟨hlt, heq, hmin, hstrict⟩ := ih hpos
      have hne : ¬ n = 0 := Nat.pos_iff_ne_zero.mp hpos
      by_cases hcond : dist n < (rootSelect dist n).2
      · have hstep : rootSelect dist (n + 1) = (n, dist n) := by
          simp [rootSelect, hne, hcond]
        rw [hstep]
        refine ⟨Nat.lt_succ_self n, rfl, ?_, ?_⟩
        · intro j hj
          rcases Nat.lt_succ_iff_lt_or_eq.mp hj with hj2 | hj2
          · exact le_of_lt (lt_of_lt_of_le hcond (hmin j hj2))
          · subst hj2; exact le_rfl
        · intro j hj
          exact lt_of_lt_of_le hcond (hmin j hj)
      · have hstep : rootSelect dist (n + 1) = rootSelect dist n := by
          simp [rootSelect, hne, hcond]
        rw [hstep]
        refine ⟨Nat.lt_succ_of_lt hlt, heq, ?_, hstrict⟩
        intro j hj
        rcases Nat.lt_succ_iff_lt_or_eq.mp hj with hj2 | hj2
        · exact hmin j hj2
        · subst hj2; exact le_of_not_lt hcond

/-- C4: the root chosen by the selection loop minimizes the total shortest
path distance `dist` over all candidates, and among candidates attaining
the minimum the lowest index is chosen (the update uses a strict
comparison, so an earlier argmin is never displaced by a tie). -/
theorem rootSelect_min (dist : ℕ → ℚ) (n j : ℕ) (hn : 0 < n) (hj : j < n) :
    (rootSelect dist n).1 < n ∧
    dist (rootSelect dist n).1 ≤ dist j ∧
    (dist j = dist (rootSelect dist n).1 → (rootSelect dist n).1 ≤ j) := by
  obtain ⟨hlt, heq, hmin, hstrict⟩ := rootSelect_spec dist n hn
  refine ⟨hlt, ?_, ?_⟩
  · rw [← heq]
    exact hmin j hj
  · intro htie
    by_contra hcon
    push_neg at hcon
    have hs := hstrict j hcon
    rw [heq, ← htie] at hs
    exact lt_irrefl _ hs

/-- Witness for C4: a concrete two-candidate table where index 1 attains
the minimum. -/
theorem rootSelect_min_witness :
    0 < 2 ∧ 1 < 2 ∧
      ((rootSelect rootDistEx 2).1 < 2 ∧
       rootDistEx (rootSelect rootDistEx 2).1 ≤ rootDistEx 1 ∧
       (rootDistEx 1 = rootDistEx (rootSelect rootDistEx 2).1 →
         (rootSelect rootDistEx 2).1 ≤ 1)) :=
  ⟨by decide, by decide, rootSelect_min rootDistEx 2 1 (by decide) (by decide)⟩

/-- Specification of `listMin`: the returned value is an element of the
list and a lower bound for it. -/
theorem listMin_spec {α : Type} [LinearOrder α] :
    ∀ (l : List α) (m : α), listMin l = some m → m ∈ l ∧ ∀ x ∈ l, m ≤ x := by
  intro l
  induction l with
  | nil => intro m h; cases h
  | cons x xs ih =>
    intro m h
    cases hx : listMin xs with
    | none =>
      simp only [listMin, hx, Option.some.injEq] at h
      subst h
      have hxs : xs = [] := by
        cases xs with
        | nil => rfl
        | cons y ys => simp [listMin] at hx
      subst hxs
      exact ⟨List.mem_singleton_self x, by
        intro y hy
        rw [List.mem_singleton] at hy
        subst hy
        exact le_rfl⟩
    | some m2 =>
      simp only [listMin, hx, Option.some.injEq] at h
      obtain ⟨hmem, hle⟩ := ih m2 hx
      subst h
      constructor
      · rcases le_total x m2 with hc | hc
        · rw [min_eq_left hc]
          exact List.mem_cons_self x xs
        · rw [min_eq_right hc]
          exact List.mem_cons_of_mem x hmem
      · intro y hy
        rcases List.mem_cons.mp hy with hy2 | hy2
        · rw [hy2]
          exact min_le_left x m2
        · exact le_trans (min_le_right x m2) (hle y hy2)

/-- A nonempty list has a minimum. -/
theorem listMin_of_ne_nil {α : Type} [LinearOrder α] (l : List α)
    (h : l ≠ []) : ∃ m, listMin l = some m := by
  cases l with
  | nil => exact absurd rfl h
  | cons x xs => exact ⟨_, rfl⟩

/-- Entries strictly before the first occurrence of `a` differ from `a`. -/
theorem get_ne_of_lt_indexOf {α : Type} [DecidableEq α] :
    ∀ (l : List α) (a : α) (j : ℕ) (hj : j < l.length),
      j < l.indexOf a → l.get ⟨j, hj⟩ ≠ a := by
  intro l
  induction l with
  | nil =>
    intro a j hj
    simp at hj
  | cons x xs ih =>
    intro a j hj hidx
    by_cases hxa : x = a
    · subst hxa
      rw [List.indexOf_cons_self] at hidx
      omega
    · cases j with
      | zero => exact hxa
      | succ j2 =>
        rw [List.indexOf_cons_ne _ hxa] at hidx
        exact ih a j2 (Nat.lt_of_succ_lt_succ hj) (Nat.lt_of_succ_lt_succ hidx)

/-- The row-sum list evaluates, at each index, the total distance of the
matrix stored there. -/
theorem rowSums_get (affs : List Mat3) (i : ℕ) (hi : i < affs.length) :
    (rowSums affs).getD i 0 = totalDist affs (affs.getD i 0) := by
  have hi2 : i < (rowSums affs).length := by simp [rowSums, hi]
  rw [List.getD_eq_get _ _ hi2, List.getD_eq_get _ _ hi]
  simp [rowSums]

/-- C5: the median affine selected by `InitialMatchToVolume` is one of the
per-slide volume-initial affines, it minimizes the summed entry-wise L1
distance to all of them, and ties among medoid candidates are broken by
the lowest index (the `std::find` returns the first argmin). -/
theorem medianAffine_min (affs : List Mat3) (j : ℕ) (h : affs ≠ [])
    (hj : j < affs.length) :
    medianAffine affs ∈ affs ∧
    totalDist affs (medianAffine affs) ≤ totalDist affs (affs.getD j 0) ∧
    (totalDist affs (affs.getD j 0) = totalDist affs (medianAffine affs) →
      idxBest affs ≤ j) := by
  have hrs_ne : rowSums affs ≠ [] := by
    simp [rowSums]
    exact h
  obtain ⟨m, hm⟩ := listMin_of_ne_nil (rowSums affs) hrs_ne
  obtain ⟨hmem, hle⟩ := listMin_spec (rowSums affs) m hm
  have hidx_eq : idxBest affs = (rowSums affs).indexOf m := by
    rw [idxBest, hm]
    rfl
  have hidx_lt : (rowSums affs).indexOf m < (rowSums affs).length :=
    List.indexOf_lt_length.mpr hmem
  have hlen : (rowSums affs).length = affs.length := by simp [rowSums]
  have hidx_lt2 : idxBest affs < affs.length := by
    rw [hidx_eq]
    omega
  have hmedian : medianAffine affs = affs.getD (idxBest affs) 0 := rfl
  have hbest_val : (rowSums affs).getD (idxBest affs) 0 = m := by
    rw [hidx_eq, List.getD_eq_get _ _ (by omega : (rowSums affs).indexOf m < (rowSums affs).length)]
    exact List.indexOf_get _
  have htd_best : totalDist affs (medianAffine affs) = m := by
    rw [hmedian, ← rowSums_get affs _ hidx_lt2, hbest_val]
  have htd_j : totalDist affs (affs.getD j 0) = (rowSums affs).getD j 0 :=
    (rowSums_get affs j hj).symm
  refine ⟨?_, ?_, ?_⟩
  · rw [hmedian, List.getD_eq_get _ _ hidx_lt2]
    exact List.get_mem affs _ _
  · rw [htd_best, htd_j, List.getD_eq_get _ _ (by omega : j < (rowSums affs).length)]
    exact hle _ (List.get_mem _ _ _)
  · intro htie
    by_contra hcon
    push_neg at hcon
    have hne := get_ne_of_lt_indexOf (rowSums affs) m j
      (by omega : j < (rowSums affs).length) (by rw [← hidx_eq]; exact hcon)
    apply hne
    rw [← List.getD_eq_get _ (0 : ℚ) (by omega : j < (rowSums affs).length), ← htd_j, htie, htd_best]

/-- Witness for C5: a one-element list of affines; its sole member is the
medoid. -/
theorem medianAffine_min_witness :
    ([(0 : Mat3)] ≠ []) ∧ 0 < [(0 : Mat3)].length ∧
      (medianAffine [(0 : Mat3)] ∈ [(0 : Mat3)] ∧
       totalDist [(0 : Mat3)] (medianAffine [(0 : Mat3)]) ≤
         totalDist [(0 : Mat3)] ([(0 : Mat3)].getD 0 0) ∧
       (totalDist [(0 : Mat3)] ([(0 : Mat3)].getD 0 0) =
          totalDist [(0 : Mat3)] (medianAffine [(0 : Mat3)]) →
         idxBest [(0 : Mat3)] ≤ 0)) :=
  ⟨by simp, by simp, medianAffine_min [(0 : Mat3)] 0 (by simp) (by simp)⟩

/-- C6: the stored edge weight is
`(1 - normalized_metric) * (1 + z_epsilon) ^ |z_j - z_i|` with
`normalized_metric = raw / (-10000 * n_components)`; for `z_epsilon ≥ 0`
and `normalized_metric ≤ 1` it is non-negative and non-decreasing in the
z-distance. -/
theorem edgeWeight_nonneg_mono (raw ncomp zEpsilon zi zj zk : ℝ)
    (heps : 0 ≤ zEpsilon) (hm : normalizedMetric raw ncomp ≤ 1)
    (hz : |zj - zi| ≤ |zk - zi|) :
    edgeWeight (normalizedMetric raw ncomp) zEpsilon zi zj =
      (1 - raw / (-10000 * ncomp)) * (1 + zEpsilon) ^ |zj - zi| ∧
    0 ≤ edgeWeight (normalizedMetric raw ncomp) zEpsilon zi zj ∧
    edgeWeight (normalizedMetric raw ncomp) zEpsilon zi zj ≤
      edgeWeight (normalizedMetric raw ncomp) zEpsilon zi zk := by
  refine ⟨rfl, ?_, ?_⟩
  · rw [edgeWeight]
    exact mul_nonneg (by linarith) (Real.rpow_nonneg (by linarith) _)
  · rw [edgeWeight, edgeWeight]
    have hb : (1 : ℝ) ≤ 1 + zEpsilon := by linarith
    exact mul_le_mul_of_nonneg_left
      (Real.rpow_le_rpow_of_exponent_le hb hz) (by linarith)

/-- Witness for C6: raw metric 0, one component, `z_epsilon = 0`, z-gaps 1
and 2. -/
theorem edgeWeight_nonneg_mono_witness :
    (0 : ℝ) ≤ 0 ∧ normalizedMetric 0 1 ≤ 1 ∧ |(1 : ℝ) - 0| ≤ |(2 : ℝ) - 0| ∧
      (edgeWeight (normalizedMetric 0 1) 0 0 1 =
        (1 - 0 / (-10000 * 1)) * (1 + 0) ^ |(1 : ℝ) - 0| ∧
       0 ≤ edgeWeight (normalizedMetric 0 1) 0 0 1 ∧
       edgeWeight (normalizedMetric 0 1) 0 0 1 ≤
         edgeWeight (normalizedMetric 0 1) 0 0 2) :=
  ⟨le_rfl, by norm_num [normalizedMetric], by norm_num,
   edgeWeight_nonneg_mono 0 1 0 0 1 2 le_rfl (by norm_num [normalizedMetric])
     (by norm_num)⟩

/-- C7: at iteration `iter` the neighbor `j` is resliced with a single
affine VOL_ITER_MATRIX(j, iter-1) when `iter - 1 ≤ n_affine`, and otherwise
with the warp VOL_ITER_WARP(j, iter-1) composed after the frozen affine
VOL_ITER_MATRIX(j, n_affine). -/
theorem resliceNbrTransforms_spec (n_affine iter j : ℕ) (h : 1 ≤ iter) :
    (iter - 1 ≤ n_affine →
      resliceNbrTransforms n_affine iter j =
        [TransformFile.volIterMatrix j (iter - 1)]) ∧
    (n_affine < iter - 1 →
      resliceNbrTransforms n_affine iter j =
        [TransformFile.volIterWarp j (iter - 1),
         TransformFile.volIterMatrix j n_affine]) := by
  constructor
  · intro hle
    simp [resliceNbrTransforms, hle]
  · intro hlt
    simp [resliceNbrTransforms, Nat.not_le.mpr hlt]

/-- Witness for C7: `n_affine = 5`, iterations 3 (affine regime) and 7
(deformable regime). -/
theorem resliceNbrTransforms_spec_witness :
    (1 ≤ 3 ∧
      (3 - 1 ≤ 5 →
        resliceNbrTransforms 5 3 0 = [TransformFile.volIterMatrix 0 (3 - 1)])) ∧
    (1 ≤ 7 ∧
      (5 < 7 - 1 →
        resliceNbrTransforms 5 7 0 =
          [TransformFile.volIterWarp 0 (7 - 1),
           TransformFile.volIterMatrix 0 5])) :=
  ⟨⟨by omega, (resliceNbrTransforms_spec 5 3 0 (by omega)).1⟩,
   ⟨by omega, (resliceNbrTransforms_spec 5 7 0 (by omega)).2⟩⟩

/-- C8: the iteration-0 transform written for slide `s` is the product
`Ma(s) * median`, the accumulated reconstruction transform times the
median affine, in that order. -/
theorem initialToVolume_eq (accum affs : List Mat3) (s : ℕ)
    (hs : s < accum.length) :
    (initialToVolumeTransforms accum affs).getD s 1 =
      accum.getD s 1 * medianAffine affs := by
  have hs2 : s < (initialToVolumeTransforms accum affs).length := by
    simp [initialToVolumeTransforms, hs]
  rw [List.getD_eq_get _ _ hs2, List.getD_eq_get _ _ hs]
  simp [initialToVolumeTransforms]

/-- Witness for C8: a single slide with identity accumulated transform. -/
theorem initialToVolume_eq_witness :
    0 < [(1 : Mat3)].length ∧
      (initialToVolumeTransforms [(1 : Mat3)] [(1 : Mat3)]).getD 0 1 =
        [(1 : Mat3)].getD 0 1 * medianAffine [(1 : Mat3)] :=
  ⟨by simp, initialToVolume_eq [(1 : Mat3)] [(1 : Mat3)] 0 (by simp)⟩

/-- The oldest entry returned by the eviction scan is a resident entry. -/
theorem oldestEntry_mem :
    ∀ (l : List (String × CacheEntry)) (e : String × CacheEntry),
      oldestEntry l = some e → e ∈ l := by
  intro l
  induction l with
  | nil => intro e h; cases h
  | cons x xs ih =>
    intro e h
    cases hx : oldestEntry xs with
    | none =>
      simp only [oldestEntry, hx, Option.some.injEq] at h
      rw [← h]
      exact List.mem_cons_self x xs
    | some e2 =>
      simp only [oldestEntry, hx, Option.some.injEq] at h
      by_cases hc : x.2.counter ≤ e2.2.counter
      · rw [if_pos hc] at h
        rw [← h]
        exact List.mem_cons_self x xs
      · rw [if_neg hc] at h
        rw [← h]
        exact List.mem_cons_of_mem x (ih e2 hx)

/-- A nonempty cache has an oldest entry. -/
theorem oldestEntry_of_ne_nil (l : List (String × CacheEntry)) (h : l ≠ []) :
    ∃ e, oldestEntry l = some e := by
  cases l with
  | nil => exact absurd rfl h
  | cons x xs => exact ⟨_, rfl⟩

/-- Evicting from a nonempty cache strictly shrinks it: the body of the
`ShrinkCache` loop makes progress. -/
theorem evictOldest_length (c : ImageCache) (h : c.cache ≠ []) :
    c.evictOldest.cache.length < c.cache.length := by
  obtain ⟨e, he⟩ := oldestEntry_of_ne_nil c.cache h
  have hmem := oldestEntry_mem c.cache e he
  have hlen :=
    List.length_eraseP_add_one (p := fun x => x.1 == e.1) hmem (by simp)
  simp [ImageCache.evictOldest, he]
  omega

/-- Eviction never touches the configured byte cap. -/
theorem evictOldest_maxMemory (c : ImageCache) :
    c.evictOldest.maxMemory = c.maxMemory := by
  cases he : oldestEntry c.cache <;> simp [ImageCache.evictOldest, he]

/-- Exit condition of the eviction loop: run with its exact bound, the loop
stops in a state where the guard `IsCacheFull && !empty` is false — this is
the termination argument for the C++ `while`. -/
theorem shrinkGo_exit (newBytes newImages : ℕ) :
    ∀ (fuel : ℕ) (c : ImageCache), c.cache.length ≤ fuel →
      (shrinkGo newBytes newImages fuel c).isCacheFull newBytes newImages = false ∨
      (shrinkGo newBytes newImages fuel c).cache = [] := by
  intro fuel
  induction fuel with
  | zero =>
    intro c hc
    right
    have h0 : c.cache = [] := List.length_eq_zero.mp (Nat.le_zero.mp hc)
    simpa [shrinkGo] using h0
  | succ fuel ih =>
    intro c hc
    by_cases hg : (c.isCacheFull newBytes newImages && !c.cache.isEmpty) = true
    · rw [shrinkGo, if_pos hg]
      apply ih
      have hne : c.cache ≠ [] := by
        have h2 := (Bool.and_eq_true _ _).mp hg
        intro hnil
        rw [hnil] at h2
        simp at h2
      have := evictOldest_length c hne
      omega
    · rw [shrinkGo, if_neg hg]
      cases hfull : c.isCacheFull newBytes newImages with
      | false => exact Or.inl rfl
      | true =>
        right
        rw [hfull] at hg
        simp at hg
        exact hg

/-- When the byte cap is positive but below the incoming image size, the
cache is always considered full, so the eviction loop runs until the cache
is empty. -/
theorem shrinkGo_oversize (newBytes newImages : ℕ) :
    ∀ (fuel : ℕ) (c : ImageCache), c.cache.length ≤ fuel →
      0 < c.maxMemory → c.maxMemory < newBytes →
      (shrinkGo newBytes newImages fuel c).cache = [] := by
  intro fuel
  induction fuel with
  | zero =>
    intro c hc _ _
    have h0 : c.cache = [] := List.length_eq_zero.mp (Nat.le_zero.mp hc)
    simpa [shrinkGo] using h0
  | succ fuel ih =>
    intro c hc hpos hlt
    have hfull : c.isCacheFull newBytes newImages = true := by
      simp only [ImageCache.isCacheFull, Bool.or_eq_true, Bool.and_eq_true,
        decide_eq_true_eq]
      exact Or.inl ⟨hpos, lt_of_lt_of_le hlt (Nat.le_add_left newBytes c.usedMemory)⟩
    cases hemp : c.cache.isEmpty with
    | true =>
      have h0 : c.cache = [] := by simpa using hemp
      have hg : (c.isCacheFull newBytes newImages && !c.cache.isEmpty) = false := by
        simp [hemp]
      rw [shrinkGo, if_neg (by simp [hg])]
      exact h0
    | false =>
      have hg : (c.isCacheFull newBytes newImages && !c.cache.isEmpty) = true := by
        simp [hfull, hemp]
      rw [shrinkGo, if_pos hg]
      apply ih
      · have hne : c.cache ≠ [] := by
          intro hnil
          rw [hnil] at hemp
          simp at hemp
        have := evictOldest_length c hne
        omega
      · rw [evictOldest_maxMemory]
        exact hpos
      · rw [evictOldest_maxMemory]
        exact hlt

/-- C9: the `ShrinkCache` loop always reaches its exit condition; a
positive byte cap smaller than the incoming image size empties the cache
entirely and `GetImage` still inserts the new image afterwards; a cap value
of zero disables the corresponding constraint. -/
theorem shrinkCache_terminates_spec :
    (∀ (c : ImageCache) (f : String) (sz : ℕ),
      0 < c.maxMemory → c.maxMemory < sz →
      (c.cache.any fun e => e.1 == f) = false →
      (c.getImage f sz).keys = [f]) ∧
    (∀ (c : ImageCache) (nb ni : ℕ), c.maxMemory = 0 → c.maxImages = 0 →
      c.isCacheFull nb ni = false) ∧
    (∀ (c : ImageCache) (nb ni : ℕ),
      (c.shrinkCache nb ni).isCacheFull nb ni = false ∨
      (c.shrinkCache nb ni).cache = []) := by
  refine ⟨?_, ?_, ?_⟩
  · intro c f sz hpos hlt hmiss
    have hempty : (c.shrinkCache sz 1).cache = [] :=
      shrinkGo_oversize sz 1 c.cache.length c le_rfl hpos hlt
    simp [ImageCache.getImage, hmiss, ImageCache.keys, hempty]
  · intro c nb ni h0 h1
    simp [ImageCache.isCacheFull, h0, h1]
  · intro c nb ni
    exact shrinkGo_exit nb ni c.cache.length c le_rfl

/-- Witness for C9: a cache with byte cap 1 receiving an image of size 2
ends up holding exactly that image; caps of zero never report fullness; a
concrete shrink ends with a false guard. -/
theorem shrinkCache_terminates_spec_witness :
    (0 < (mkImageCache 1 0 0).maxMemory ∧ (mkImageCache 1 0 0).maxMemory < 2 ∧
      ((mkImageCache 1 0 0).cache.any fun e => e.1 == ("A")) = false ∧
      ((mkImageCache 1 0 0).getImage ("A") 2).keys = [("A")]) ∧
    (mkImageCache 0 0 5).isCacheFull 3 1 = false ∧
    (((mkImageCache 0 2 7).shrinkCache 1 1).isCacheFull 1 1 = false ∨
      ((mkImageCache 0 2 7).shrinkCache 1 1).cache = []) :=
  ⟨⟨by decide, by decide, by decide,
    shrinkCache_terminates_spec.1 (mkImageCache 1 0 0) ("A") 2 (by decide)
      (by decide) (by decide)⟩,
   shrinkCache_terminates_spec.2.1 (mkImageCache 0 0 5) 3 1 rfl rfl,
   shrinkCache_terminates_spec.2.2 (mkImageCache 0 2 7) 1 1⟩

/-- C1 counterexample: with `max_images = 2` and the byte cap disabled, the
`GetImage` sequence A, B, A, C leaves a cache that does not contain A — the
hit on A did not refresh its counter, so A was the eviction victim — while
the claim predicts residents {A, C}. -/
theorem cacheScenarioC1_not_AC :
    ("A") ∉ cacheScenarioC1.keys ∧ cacheScenarioC1.keys ≠ [("A"), ("C")] := by
  decide

/-- C1 (amended): `GetImage` on a cache hit returns without updating any
cache state (the counter of an entry is assigned only at load time), so
eviction is oldest-insertion-first; in the A, B, A, C scenario the hit on A
leaves the cache unchanged and the insertion of C evicts A, leaving
residents {B, C}. -/
theorem cacheScenarioC1_keys :
    ((((mkImageCache 0 2 0).getImage ("A") 1).getImage ("B") 1).getImage ("A") 1 =
      (((mkImageCache 0 2 0).getImage ("A") 1).getImage ("B") 1)) ∧
    cacheScenarioC1.keys = [("B"), ("C")] := by
  decide

/-- C10 (code bug): `m_UsedMemory` is missing from the initializer
list of the constructor, so a fresh `ImageCache` holds an indeterminate value
there instead of 0; with indeterminate content 1 the accounting invariant
`m_UsedMemory = total size of resident entries` fails on the freshly
constructed cache. -/
theorem mkImageCache_uninitialized :
    ¬ (mkImageCache 100 2 1).memoryAccounted ∧
    (mkImageCache 100 2 1).usedMemory = 1 ∧
    (mkImageCache 100 2 1).residentBytes = 0 := by
  refine ⟨?_, rfl, rfl⟩
  intro h
  simp [ImageCache.memoryAccounted, ImageCache.residentBytes, mkImageCache] at h
